import Mathlib

/-!
Verification of the transcript reconstruction and rendering engine of
`claude-session-to-md.py` (function `jsonl_to_markdown`, lines 204-322).

Texts are modelled as `List Char` (`Str`), Python `str.strip()` as
`pyStrip`, `"\n".join(...)` as `joinNL`.  Lines are modelled at two
levels.  `Option Entry` covers the lines the loop actually survives:
`none` is a line skipped by the `continue`s of lines 222-227 (blank, or
non-blank with `json.loads` raising `JSONDecodeError`).  `RawLine` adds
the remaining case: a line that parses as JSON but is not a record (a
non-dict value, or a dict whose `"message"` value is not a dict), for
which the attribute accesses of lines 229-231 raise an uncaught
`AttributeError` that aborts the whole run; `runRaw` and
`jsonl_to_markdown_raw` model that abort.  The reconstruction state
mirrors the local variables of `jsonl_to_markdown`: `messages`,
`seen_user_texts`, `assistant_msgs` (an insertion-ordered dict,
modelled as an association list with Python dict update semantics) and
`order_counter`.
-/

namespace SessionToMd

abbrev Str := List Char

/-- Python whitespace test used by `str.strip()`. -/
def isSpace (c : Char) : Bool := c.isWhitespace

/-- Python `s.strip()`: drop whitespace from both ends. -/
def pyStrip (s : Str) : Str :=
  ((s.dropWhile isSpace).reverse.dropWhile isSpace).reverse

/-- Python `"\n".join(pieces)`. -/
def joinNL : List Str → Str
  | [] => []
  | [p] => p
  | p :: q :: ps => p ++ '\n' :: joinNL (q :: ps)

def userS : Str := "user".data
def asstS : Str := "assistant".data
def textS : Str := "text".data

/-- One content block of an assistant message (`block` in the source);
`btype` models `block.get("type")`, `btext` models the `"text"` key. -/
structure CBlock where
  btype : Option Str
  btext : Option Str
deriving DecidableEq

/-- `message.get("content")`: a plain string, a list of blocks, or
anything else (missing / other JSON type). -/
inductive Content where
  | str (s : Str)
  | blocks (bs : List CBlock)
  | other
deriving DecidableEq

/-- One successfully parsed JSONL record, with the fields the loop reads:
`entry.get("type")`, `entry.get("timestamp", "")`, `message.get("role")`,
`message.get("content")`, `message.get("id", "")`. -/
structure Entry where
  etype : Option Str
  timestamp : Str
  role : Option Str
  content : Content
  msgId : Str
deriving DecidableEq

/-- A reconstructed logical message (the dicts stored in `messages` /
`assistant_msgs`): `order` is the `sequence_index`. -/
structure Msg where
  role : Str
  text : Str
  timestamp : Str
  order : Nat
deriving DecidableEq

/-- The mutable state of the reconstruction loop. -/
structure RState where
  messages : List Msg
  seenUserTexts : List Str
  assistantMsgs : List (Str × Msg)
  orderCounter : Nat
deriving DecidableEq

/-- Python dict lookup `d[k]` / `k in d` on the insertion-ordered dict. -/
def dictFind (k : Str) : List (Str × Msg) → Option Msg
  | [] => none
  | (k', v) :: rest => if k' = k then some v else dictFind k rest

/-- Python dict assignment `d[k] = v`: replace in place if the key is
present, else append at the end (insertion order preserved). -/
def dictSet (k : Str) (v : Msg) : List (Str × Msg) → List (Str × Msg)
  | [] => [(k, v)]
  | (k', v') :: rest =>
    if k' = k then (k, v) :: rest else (k', v') :: dictSet k v rest

/-- Filter of the generator at lines 249-253: keep blocks with
`block.get("type") == "text"` and non-empty stripped text. -/
def blockKeep (b : CBlock) : Bool :=
  decide (b.btype = some textS) && decide (pyStrip (b.btext.getD []) ≠ [])

/-- The value contributed by a kept block: `block.get("text", "").strip()`. -/
def blockText (b : CBlock) : Str := pyStrip (b.btext.getD [])

/-- `full_text` of lines 249-253: newline-join of the stripped texts of
the kept blocks. -/
def assembleBlocks (bs : List CBlock) : Str :=
  joinNL ((bs.filter blockKeep).map blockText)

/-- The synthetic dict key `f"_no_id_{order_counter}"` (line 263). -/
def noIdKey (n : Nat) : Str := "_no_id_".data ++ (Nat.repr n).data

/-- The `user` branch of the loop (lines 236-245). -/
def userBranch (st : RState) (e : Entry) : RState :=
  match e.content with
  | Content.str c =>
    if e.etype = some userS ∧ e.role = some userS then
      if c ∈ st.seenUserTexts then st
      else
        { messages := st.messages ++ [Msg.mk userS c e.timestamp st.orderCounter]
          seenUserTexts := c :: st.seenUserTexts
          assistantMsgs := st.assistantMsgs
          orderCounter := st.orderCounter + 1 }
    else st
  | _ => st

/-- The `assistant` branch of the loop (lines 247-270).  The Python
condition `msg_id and msg_id in assistant_msgs` together with
`key = msg_id or f"_no_id_{order_counter}"` is unfolded into the three
cases: non-empty id found (revise), non-empty id new (create under the
id), empty id (create under the synthetic key). -/
def asstBranch (st : RState) (e : Entry) : RState :=
  match e.content with
  | Content.blocks bs =>
    if e.etype = some asstS ∧ e.role = some asstS then
      if assembleBlocks bs = [] then st
      else if e.msgId ≠ [] then
        match dictFind e.msgId st.assistantMsgs with
        | some m =>
          if m.text.length ≤ (assembleBlocks bs).length then
            { st with
              assistantMsgs :=
                dictSet e.msgId (Msg.mk m.role (assembleBlocks bs) e.timestamp m.order)
                  st.assistantMsgs }
          else st
        | none =>
          { st with
            assistantMsgs :=
              dictSet e.msgId (Msg.mk asstS (assembleBlocks bs) e.timestamp st.orderCounter)
                st.assistantMsgs
            orderCounter := st.orderCounter + 1 }
      else
        { st with
          assistantMsgs :=
            dictSet (noIdKey st.orderCounter)
              (Msg.mk asstS (assembleBlocks bs) e.timestamp st.orderCounter)
              st.assistantMsgs
          orderCounter := st.orderCounter + 1 }
    else st
  | _ => st

/-- One loop iteration on a parsed entry: the two `if` statements are
sequential in the source. -/
def stepEntry (st : RState) (e : Entry) : RState :=
  asstBranch (userBranch st e) e

/-- One loop iteration on a line the `except` clause survives: `none`
is a line skipped by the `continue`s of lines 222-227 (blank, or
`json.loads` raising `JSONDecodeError`).  A JSON-valid line that is not
a record crashes the loop instead of being skipped; that path is
modelled separately by `RawLine` / `stepRaw` / `runRaw` below. -/
def stepLine (st : RState) (l : Option Entry) : RState :=
  match l with
  | none => st
  | some e => stepEntry st e

def initState : RState := RState.mk [] [] [] 0

def runFrom (st : RState) (ls : List (Option Entry)) : RState :=
  ls.foldl stepLine st

def runState (ls : List (Option Entry)) : RState := runFrom initState ls

/-- Ordering used by `messages.sort(key=lambda m: m["order"])`. -/
def msgLE (a b : Msg) : Prop := a.order ≤ b.order

instance : DecidableRel msgLE := fun a b => Nat.decLe a.order b.order

instance : IsTotal Msg msgLE := ⟨fun a b => Nat.le_total a.order b.order⟩

instance : IsTrans Msg msgLE := ⟨fun _ _ _ => Nat.le_trans⟩

def sortByOrder (l : List Msg) : List Msg := l.insertionSort msgLE

/-- Lines 272-274: `messages.extend(assistant_msgs.values())` then sort
by `order`. -/
def reconstructMsgs (ls : List (Option Entry)) : List Msg :=
  sortByOrder ((runState ls).messages ++ (runState ls).assistantMsgs.map Prod.snd)

/-- Helper for building assistant records in statements. -/
def mkAsst (ts : Str) (bs : List CBlock) (i : Str) : Entry :=
  Entry.mk (some asstS) ts (some asstS) (Content.blocks bs) i

/-- Helper for building user records in statements. -/
def mkUser (ts c : Str) : Entry :=
  Entry.mk (some userS) ts (some userS) (Content.str c) []

/-- A plain text block with the given text. -/
def tb (t : Str) : CBlock := CBlock.mk (some textS) (some t)

/-! ### Renderer (lines 280-319) -/

/-- The loop of lines 296-302, with a structural fuel argument (the
fuel is always at least the list length, so the `0` fallback is never
reached): merge consecutive messages of the same role; the surviving
block keeps the first message's fields and accumulates texts with a
blank-line separator. -/
def mergeGo : Nat → List Msg → List Msg
  | _, [] => []
  | _, [m] => [m]
  | 0, l => l
  | fuel + 1, m₁ :: m₂ :: rest =>
    if m₁.role = m₂.role then
      mergeGo fuel
        (Msg.mk m₁.role (m₁.text ++ '\n' :: '\n' :: m₂.text) m₁.timestamp m₁.order :: rest)
    else m₁ :: mergeGo fuel (m₂ :: rest)

/-- Lines 296-302: merge consecutive messages of the same role. -/
def mergeAdjacent (l : List Msg) : List Msg := mergeGo l.length l

def sumrOpen : Str := "<summary>".data
def sumrClose : Str := "</summary>".data

/-- The scan of `re.sub(r"</?summary>", "", text)` (line 306) with a
structural fuel argument (the fuel is always at least the text length,
so the `0` fallback is never reached): one left-to-right pass removing
non-overlapping occurrences of the two literal tokens. -/
def stripGo : Nat → Str → Str
  | _, [] => []
  | 0, s => s
  | fuel + 1, c :: rest =>
    if (c :: rest).take 10 = sumrClose then stripGo fuel ((c :: rest).drop 10)
    else if (c :: rest).take 9 = sumrOpen then stripGo fuel ((c :: rest).drop 9)
    else c :: stripGo fuel rest

/-- Line 306: `re.sub(r"</?summary>", "", text)`. -/
def stripSummary (s : Str) : Str := stripGo s.length s

/-- Line 306: tag removal followed by `.strip()`. -/
def sanitizeText (t : Str) : Str := pyStrip (stripSummary t)

/-- Lines 304-308: the block as emitted, or `none` when the sanitized
text is empty (`continue`). -/
def renderBlock? (m : Msg) : Option (Str × Str) :=
  if sanitizeText m.text = [] then none else some (m.role, sanitizeText m.text)

/-- Lines 310-313: the callout marker, chosen by `role == "user"`. -/
def roleMarker (r : Str) : Str :=
  if r = userS then "> [!question] User".data else "> [!example] Claude".data

/-- An approximation of Python `str.splitlines` adequate for sanitized
texts (which never start or end with a newline): split on `'\n'`, with
the empty text giving no lines. -/
def pySplitlines (s : Str) : List Str := if s = [] then [] else s.splitOn '\n'

/-- Lines 310-316: one emitted section — marker, quoted lines, blank. -/
def sectionLines (b : Str × Str) : List Str :=
  roleMarker b.1 :: (pySplitlines b.2).map (fun tl => "> ".data ++ tl) ++ [[]]

/-- The body of the document: the loop of lines 304-316 (sanitize and
skip, then emit a section per surviving block). -/
def bodyLines (merged : List Msg) : List Str :=
  (merged.filterMap renderBlock?).map sectionLines |>.flatten

/-- Lines 280-294: the header.  `fmtDate` models the `try` of lines
286-290: `some` is the `strftime` result, `none` the parse failure that
falls back to the raw timestamp string. -/
def headerLines (fmtDate : Str → Option Str) (sessionId : Str) (msgs : List Msg) : List Str :=
  ["# Claude Code Session".data, []]
  ++ (match msgs.head? with
      | some m =>
        if m.timestamp ≠ [] then
          ["**Date:** ".data ++ (fmtDate m.timestamp).getD m.timestamp]
        else []
      | none => [])
  ++ ["**Session ID:** `".data ++ sessionId ++ "`".data, [], "---".data, []]

/-- The whole conversion (lines 204-322).  The input is `none` when the
log path does not exist (line 206); the result is `none` exactly when
the function returns `False` having written nothing (lines 206-208 and
276-278), and `some doc` when it writes `doc` and returns `True`. -/
def jsonl_to_markdown (fmtDate : Str → Option Str) (sessionId : Str)
    (input : Option (List (Option Entry))) : Option Str :=
  match input with
  | none => none
  | some ls =>
    if reconstructMsgs ls = [] then none
    else
      some (joinNL (headerLines fmtDate sessionId (reconstructMsgs ls)
        ++ bodyLines (mergeAdjacent (reconstructMsgs ls))))

/-- One raw line of the file as the read loop at lines 219-234 sees it:
blank after `strip()` (skipped at lines 222-223); non-blank with
`json.loads` raising `JSONDecodeError` (skipped at lines 224-227);
JSON-valid but not a record — a non-dict value such as `[]` or `42`, or
a dict whose `"message"` value is not a dict, such as
`{"message": null}` — so the attribute accesses of lines 229-231 raise
`AttributeError`, which no handler catches; or a successfully parsed
record. -/
inductive RawLine where
  | blank
  | badJson
  | nonRecord
  | record (e : Entry)
deriving DecidableEq

/-- One iteration of the read loop on a raw line: `none` models the
uncaught `AttributeError` aborting the whole run. -/
def stepRaw (st : RState) (l : RawLine) : Option RState :=
  match l with
  | RawLine.blank => some st
  | RawLine.badJson => some st
  | RawLine.nonRecord => none
  | RawLine.record e => some (stepEntry st e)

/-- The read loop over raw lines: the first crashing line aborts the
run (the exception propagates out of `jsonl_to_markdown`). -/
def runRaw (st : RState) : List RawLine → Option RState
  | [] => some st
  | l :: rest =>
    match stepRaw st l with
    | none => none
    | some st' => runRaw st' rest

/-- The crash-free reading of a raw line, relating the two line
levels on streams without `nonRecord` lines. -/
def rawToLine : RawLine → Option Entry
  | RawLine.blank => none
  | RawLine.badJson => none
  | RawLine.nonRecord => none
  | RawLine.record e => some e

/-- Lines 272-274 applied to a final loop state. -/
def finishMsgs (st : RState) : List Msg :=
  sortByOrder (st.messages ++ st.assistantMsgs.map Prod.snd)

/-- Outcome of one conversion run: an uncaught exception escaped (no
return value, nothing written), a `False` return with nothing written,
or a document written with a `True` return. -/
inductive ConvResult where
  | crashed
  | failed
  | written (doc : Str)
deriving DecidableEq

/-- `jsonl_to_markdown` over raw lines: a missing input file returns
`False` (lines 206-208, `failed`); a line raising during the read loop
aborts the run (`crashed`); otherwise the behaviour of lines 272-322:
`failed` on zero messages, else the document is written. -/
def jsonl_to_markdown_raw (fmtDate : Str → Option Str) (sessionId : Str)
    (input : Option (List RawLine)) : ConvResult :=
  match input with
  | none => ConvResult.failed
  | some ls =>
    match runRaw initState ls with
    | none => ConvResult.crashed
    | some st =>
      if finishMsgs st = [] then ConvResult.failed
      else
        ConvResult.written (joinNL (headerLines fmtDate sessionId (finishMsgs st)
          ++ bodyLines (mergeAdjacent (finishMsgs st))))
/-- Both ends of a text are non-whitespace (vacuous on the empty text). -/
def goodEnds (s : Str) : Prop :=
  (∀ c, s.head? = some c → isSpace c = false)
  ∧ (∀ c, s.getLast? = some c → isSpace c = false)
/-- Spec-worded assembly (for C8): the trimmed text of every block of
kind "text" with non-empty trimmed content, joined by a newline
separator, then the whole joined text trimmed. -/
def specAssembleBlocks (bs : List CBlock) : Str :=
  pyStrip (joinNL ((bs.filter fun b =>
      decide (b.btype = some textS) && decide (pyStrip (b.btext.getD []) ≠ [])).map
    fun b => pyStrip (b.btext.getD [])))
/-- `s` contains `tok` as a contiguous substring. -/
def containsTok (tok s : Str) : Prop := ∃ pre suf, s = pre ++ (tok ++ suf)
/-- The line is a user-typed record with role `user` and string content
exactly `c`. -/
def isUserRecWith (c : Str) : Option Entry → Bool
  | none => false
  | some e =>
    decide (e.etype = some userS ∧ e.role = some userS ∧ e.content = Content.str c)

/-- The message is a user message with text exactly `c`. -/
def isUserMsgWith (c : Str) (m : Msg) : Bool :=
  decide (m.role = userS ∧ m.text = c)

/-! ### Basic lemmas about the dict model and the assistant branch -/

theorem dictFind_dictSet_self (k : Str) (v : Msg) (d : List (Str × Msg)) :
    dictFind k (dictSet k v d) = some v := by
  induction d with
  | nil => simp [dictFind, dictSet]
  | cons p rest ih =>
    obtain ⟨k', v'⟩ := p
    by_cases h : k' = k <;> simp [dictFind, dictSet, h, ih]

theorem userBranch_blocks (st : RState) (ts : Str) (bs : List CBlock) (i : Str) :
    userBranch st (mkAsst ts bs i) = st := rfl

theorem asstBranch_skip (st : RState) (ts : Str) (bs : List CBlock) (i : Str)
    (he : assembleBlocks bs = []) : asstBranch st (mkAsst ts bs i) = st := by
  simp [asstBranch, mkAsst, he]

theorem asstBranch_revise (st : RState) (ts : Str) (bs : List CBlock) (i : Str) (m : Msg)
    (hi : i ≠ []) (hne : assembleBlocks bs ≠ [])
    (hf : dictFind i st.assistantMsgs = some m) :
    asstBranch st (mkAsst ts bs i) =
      if m.text.length ≤ (assembleBlocks bs).length then
        { st with
          assistantMsgs :=
            dictSet i (Msg.mk m.role (assembleBlocks bs) ts m.order) st.assistantMsgs }
      else st := by
  simp [asstBranch, mkAsst, hne, hi, hf]

theorem asstBranch_create (st : RState) (ts : Str) (bs : List CBlock) (i : Str)
    (hi : i ≠ []) (hne : assembleBlocks bs ≠ [])
    (hf : dictFind i st.assistantMsgs = none) :
    asstBranch st (mkAsst ts bs i) =
      { st with
        assistantMsgs :=
          dictSet i (Msg.mk asstS (assembleBlocks bs) ts st.orderCounter) st.assistantMsgs
        orderCounter := st.orderCounter + 1 } := by
  simp [asstBranch, mkAsst, hne, hi, hf]

theorem asstBranch_noid (st : RState) (ts : Str) (bs : List CBlock)
    (hne : assembleBlocks bs ≠ []) :
    asstBranch st (mkAsst ts bs []) =
      { st with
        assistantMsgs :=
          dictSet (noIdKey st.orderCounter)
            (Msg.mk asstS (assembleBlocks bs) ts st.orderCounter) st.assistantMsgs
        orderCounter := st.orderCounter + 1 } := by
  simp [asstBranch, mkAsst, hne]

/-- C1: assistant records sharing a message id are grouped: the first
record for an id creates a logical message whose sequence index is the
next counter value (and bumps the counter); a subsequent record for the
id replaces the stored assembled text if and only if its length is at
least the stored text's length, never changing the sequence index; and
for lengths L1 ≤ L2 ≤ L3 arriving in that order the final stored text is
the third record's text while the stored order is the one assigned at
the first record. -/
theorem c1_assistant_grouping_and_revisions
    (st : RState) (i ts1 ts2 ts3 : Str) (bs1 bs2 bs3 : List CBlock)
    (hi : i ≠ [])
    (hfresh : dictFind i st.assistantMsgs = none)
    (h1 : assembleBlocks bs1 ≠ [])
    (h2 : assembleBlocks bs2 ≠ [])
    (h3 : assembleBlocks bs3 ≠ [])
    (l12 : (assembleBlocks bs1).length ≤ (assembleBlocks bs2).length)
    (l23 : (assembleBlocks bs2).length ≤ (assembleBlocks bs3).length) :
    dictFind i (stepEntry st (mkAsst ts1 bs1 i)).assistantMsgs
        = some (Msg.mk asstS (assembleBlocks bs1) ts1 st.orderCounter)
    ∧ (stepEntry st (mkAsst ts1 bs1 i)).orderCounter = st.orderCounter + 1
    ∧ (∀ (st' : RState) (ts : Str) (bs : List CBlock) (m : Msg),
        dictFind i st'.assistantMsgs = some m →
        assembleBlocks bs ≠ [] →
        dictFind i (stepEntry st' (mkAsst ts bs i)).assistantMsgs =
          some (if m.text.length ≤ (assembleBlocks bs).length
                then Msg.mk m.role (assembleBlocks bs) ts m.order else m))
    ∧ dictFind i (runFrom st
          [some (mkAsst ts1 bs1 i), some (mkAsst ts2 bs2 i),
           some (mkAsst ts3 bs3 i)]).assistantMsgs
        = some (Msg.mk asstS (assembleBlocks bs3) ts3 st.orderCounter) := by
  refine ⟨?_, ?_, ?_, ?_⟩
  · rw [stepEntry, userBranch_blocks, asstBranch_create st ts1 bs1 i hi h1 hfresh]
    exact dictFind_dictSet_self ..
  · rw [stepEntry, userBranch_blocks, asstBranch_create st ts1 bs1 i hi h1 hfresh]
  · intro st' ts bs m hf hne
    rw [stepEntry, userBranch_blocks, asstBranch_revise st' ts bs i m hi hne hf]
    by_cases hc : m.text.length ≤ (assembleBlocks bs).length
    · simp only [if_pos hc]
      exact dictFind_dictSet_self ..
    · simp only [if_neg hc]
      exact hf
  · have hrun : runFrom st
        [some (mkAsst ts1 bs1 i), some (mkAsst ts2 bs2 i), some (mkAsst ts3 bs3 i)]
        = stepEntry (stepEntry (stepEntry st (mkAsst ts1 bs1 i)) (mkAsst ts2 bs2 i))
            (mkAsst ts3 bs3 i) := rfl
    have f1 : dictFind i (stepEntry st (mkAsst ts1 bs1 i)).assistantMsgs
        = some (Msg.mk asstS (assembleBlocks bs1) ts1 st.orderCounter) := by
      rw [stepEntry, userBranch_blocks, asstBranch_create st ts1 bs1 i hi h1 hfresh]
      exact dictFind_dictSet_self ..
    have s2 : stepEntry (stepEntry st (mkAsst ts1 bs1 i)) (mkAsst ts2 bs2 i)
        = { stepEntry st (mkAsst ts1 bs1 i) with
            assistantMsgs :=
              dictSet i (Msg.mk asstS (assembleBlocks bs2) ts2 st.orderCounter)
                (stepEntry st (mkAsst ts1 bs1 i)).assistantMsgs } := by
      rw [stepEntry, userBranch_blocks,
        asstBranch_revise _ ts2 bs2 i (Msg.mk asstS (assembleBlocks bs1) ts1 st.orderCounter)
          hi h2 f1,
        if_pos (show (Msg.mk asstS (assembleBlocks bs1) ts1 st.orderCounter).text.length
          ≤ (assembleBlocks bs2).length from l12)]
    have f2 : dictFind i
        (stepEntry (stepEntry st (mkAsst ts1 bs1 i)) (mkAsst ts2 bs2 i)).assistantMsgs
        = some (Msg.mk asstS (assembleBlocks bs2) ts2 st.orderCounter) := by
      rw [s2]; exact dictFind_dictSet_self ..
    rw [hrun, stepEntry, userBranch_blocks,
      asstBranch_revise _ ts3 bs3 i (Msg.mk asstS (assembleBlocks bs2) ts2 st.orderCounter)
        hi h3 f2,
      if_pos (show (Msg.mk asstS (assembleBlocks bs2) ts2 st.orderCounter).text.length
        ≤ (assembleBlocks bs3).length from l23)]
    exact dictFind_dictSet_self ..

/-- Witness for C1 at a concrete three-record stream with assembled
texts of lengths 1 ≤ 2 ≤ 3. -/
theorem c1_witness :
    dictFind "a1".data (runFrom initState
      [some (mkAsst "t1".data [tb "a".data] "a1".data),
       some (mkAsst "t2".data [tb "ab".data] "a1".data),
       some (mkAsst "t3".data [tb "abc".data] "a1".data)]).assistantMsgs
      = some (Msg.mk asstS "abc".data "t3".data 0) :=
  (c1_assistant_grouping_and_revisions initState "a1".data "t1".data "t2".data "t3".data
    [tb "a".data] [tb "ab".data] [tb "abc".data]
    (by decide) (by decide) (by decide) (by decide) (by decide)
    (by decide) (by decide)).2.2.2

/-- C7 counterexample: for the stream `a1:"hi there"@t1` then
`a1:"hi"@t2`, the second (shorter) record for the id does NOT replace
the stored timestamp: the stored timestamp stays `t1`, not `t2` as the
claim predicts. -/
theorem c7_counterexample :
    (dictFind "a1".data (runState
      [some (mkAsst "t1".data [tb "hi there".data] "a1".data),
       some (mkAsst "t2".data [tb "hi".data] "a1".data)]).assistantMsgs).map Msg.timestamp
      = some "t1".data
    ∧ "t1".data ≠ "t2".data := by decide

/-- C7 (amended): a subsequent assistant record for an already-seen id
replaces the stored timestamp exactly when its assembled text replaces
the stored text, i.e. when its assembled-text length is at least the
stored text's length; a shorter revision leaves the timestamp unchanged. -/
theorem c7_timestamp_replaced_with_text
    (st : RState) (ts i : Str) (bs : List CBlock) (m : Msg)
    (hi : i ≠ []) (hne : assembleBlocks bs ≠ [])
    (hf : dictFind i st.assistantMsgs = some m) :
    (dictFind i (stepEntry st (mkAsst ts bs i)).assistantMsgs).map Msg.timestamp
      = some (if m.text.length ≤ (assembleBlocks bs).length then ts else m.timestamp) := by
  rw [stepEntry, userBranch_blocks, asstBranch_revise st ts bs i m hi hne hf]
  by_cases hc : m.text.length ≤ (assembleBlocks bs).length
  · simp [hc, dictFind_dictSet_self]
  · simp [hc, hf]

/-- Witness for C7 (amended): a longer revision carries its timestamp in. -/
theorem c7_witness :
    (dictFind "a1".data (stepEntry
        (runState [some (mkAsst "t1".data [tb "hi".data] "a1".data)])
        (mkAsst "t2".data [tb "hi there".data] "a1".data)).assistantMsgs).map Msg.timestamp
      = some "t2".data := by
  have h := c7_timestamp_replaced_with_text
    (runState [some (mkAsst "t1".data [tb "hi".data] "a1".data)])
    "t2".data "a1".data [tb "hi there".data]
    (Msg.mk asstS "hi".data "t1".data 0)
    (by decide) (by decide) (by decide)
  exact h.trans (by decide)

/-- C10 counterexample: a record with empty id creates its message under
the synthetic key `_no_id_0`; a later record whose explicit id is the
string `_no_id_0` collides with that key and merges into (revises) the
no-id record's message, so the synthetic key CAN collide with another
record's key: only one logical message results, carrying the second
record's text and timestamp. -/
theorem c10_counterexample :
    reconstructMsgs
      [some (mkAsst "t1".data [tb "a".data] []),
       some (mkAsst "t2".data [tb "ab".data] "_no_id_0".data)]
      = [Msg.mk asstS "ab".data "t2".data 0]
    ∧ noIdKey 0 = "_no_id_0".data := by decide

/-- C10 (amended): an assistant record whose message id is the empty
string (the parse of both an empty-string id and a missing id field) is
never matched against the stored ids: it always creates its own logical
message with a fresh sequence index, stored under the synthetic key
`_no_id_<counter>`; but that synthetic key is an ordinary dict key, so a
later record whose explicit id equals it can merge with this message. -/
theorem c10_no_id_creates_fresh (st : RState) (ts : Str) (bs : List CBlock)
    (hne : assembleBlocks bs ≠ []) :
    stepEntry st (mkAsst ts bs []) =
      { st with
        assistantMsgs :=
          dictSet (noIdKey st.orderCounter)
            (Msg.mk asstS (assembleBlocks bs) ts st.orderCounter) st.assistantMsgs
        orderCounter := st.orderCounter + 1 } := by
  rw [stepEntry, userBranch_blocks]
  exact asstBranch_noid st ts bs hne

/-- Witness for C10 (amended) at a concrete no-id record. -/
theorem c10_witness :
    stepEntry initState (mkAsst "t".data [tb "a".data] []) =
      { initState with
        assistantMsgs := dictSet (noIdKey 0) (Msg.mk asstS "a".data "t".data 0) []
        orderCounter := 1 } :=
  c10_no_id_creates_fresh initState "t".data [tb "a".data] (by decide)

/-! ### Stripping lemmas: `pyStrip` is the identity on texts whose two
ends are non-whitespace, which is what the per-block stripping of the
assembly guarantees. -/

theorem head?_dropWhile (p : Char → Bool) (l : Str) (c : Char)
    (h : (l.dropWhile p).head? = some c) : p c = false := by
  induction l with
  | nil => simp [List.dropWhile] at h
  | cons a t ih =>
    rw [List.dropWhile_cons] at h
    by_cases hp : p a
    · rw [if_pos hp] at h; exact ih h
    · rw [if_neg hp] at h
      simp only [List.head?_cons, Option.some.injEq] at h
      rw [← h]
      exact Bool.eq_false_iff.mpr hp

theorem dropWhile_eq_self_of_head (l : Str)
    (h : ∀ c, l.head? = some c → isSpace c = false) : l.dropWhile isSpace = l := by
  cases l with
  | nil => rfl
  | cons a t =>
    rw [List.dropWhile_cons, if_neg]
    simp [h a rfl]

theorem pyStrip_eq_self (s : Str) (h : goodEnds s) : pyStrip s = s := by
  obtain ⟨h1, h2⟩ := h
  unfold pyStrip
  rw [dropWhile_eq_self_of_head s h1]
  rw [dropWhile_eq_self_of_head s.reverse
    (fun c hc => h2 c (by rwa [List.head?_reverse] at hc))]
  exact List.reverse_reverse s

theorem getLast?_append_ne (l₁ l₂ : Str) (h : l₂ ≠ []) :
    (l₁ ++ l₂).getLast? = l₂.getLast? := by
  rw [← List.head?_reverse, ← List.head?_reverse, List.reverse_append]
  cases hr : l₂.reverse with
  | nil => exact absurd (by simpa using hr) h
  | cons a t => rfl

theorem dropWhile_suffix_self (p : Char → Bool) (l : Str) : l.dropWhile p <:+ l := by
  induction l with
  | nil => exact List.suffix_rfl
  | cons a t ih =>
    rw [List.dropWhile_cons]
    by_cases hp : p a
    · rw [if_pos hp]
      exact ih.trans (List.suffix_cons a t)
    · rw [if_neg hp]

theorem goodEnds_pyStrip (s : Str) : goodEnds (pyStrip s) := by
  constructor
  · intro c hc
    unfold pyStrip at hc
    rw [List.head?_reverse] at hc
    have hxne : (s.dropWhile isSpace).reverse.dropWhile isSpace ≠ [] := by
      intro h0; rw [h0] at hc; simp at hc
    obtain ⟨t, ht⟩ := dropWhile_suffix_self isSpace (s.dropWhile isSpace).reverse
    have h1 : ((s.dropWhile isSpace).reverse).getLast?
        = ((s.dropWhile isSpace).reverse.dropWhile isSpace).getLast? := by
      conv_lhs => rw [← ht]
      exact getLast?_append_ne t _ hxne
    have h2 : (s.dropWhile isSpace).head? = some c := by
      rw [← List.getLast?_reverse, h1]
      exact hc
    exact head?_dropWhile isSpace s c h2
  · intro c hc
    unfold pyStrip at hc
    rw [List.getLast?_reverse] at hc
    exact head?_dropWhile isSpace _ c hc

theorem joinNL_ne_nil (q : Str) (ps : List Str) (hq : q ≠ []) :
    joinNL (q :: ps) ≠ [] := by
  cases ps with
  | nil => simpa [joinNL] using hq
  | cons r ps' =>
    rw [joinNL]
    cases q with
    | nil => exact absurd rfl hq
    | cons a t => simp

theorem goodEnds_joinNL (ps : List Str) (h : ∀ p ∈ ps, p ≠ [] ∧ goodEnds p) :
    goodEnds (joinNL ps) := by
  induction ps with
  | nil =>
    constructor <;> intro c hc <;> simp [joinNL] at hc
  | cons p ps ih =>
    cases ps with
    | nil => simpa [joinNL] using (h p (by simp)).2
    | cons q ps' =>
      have hp := h p (by simp)
      have hrest : goodEnds (joinNL (q :: ps')) :=
        ih (fun r hr => h r (List.mem_cons_of_mem p hr))
      have hrne : joinNL (q :: ps') ≠ [] :=
        joinNL_ne_nil q ps' (h q (by simp)).1
      rw [joinNL]
      constructor
      · intro c hc
        cases hpc : p with
        | nil => exact absurd hpc hp.1
        | cons a t =>
          rw [hpc] at hc
          simp only [List.cons_append, List.head?_cons, Option.some.injEq] at hc
          subst hc
          exact hp.2.1 a (by rw [hpc]; rfl)
      · intro c hc
        rw [getLast?_append_ne p ('\n' :: joinNL (q :: ps')) (by simp)] at hc
        have : ('\n' :: joinNL (q :: ps')) = ['\n'] ++ joinNL (q :: ps') := rfl
        rw [this, getLast?_append_ne _ _ hrne] at hc
        exact hrest.2 c hc

theorem pyStrip_joinNL (ps : List Str) (h : ∀ p ∈ ps, p ≠ [] ∧ goodEnds p) :
    pyStrip (joinNL ps) = joinNL ps :=
  pyStrip_eq_self _ (goodEnds_joinNL ps h)

/-- C8: the code's assembled text coincides with the spec-worded
assembly (the final trim is a no-op because every joined piece is
already trimmed and non-empty), and an assistant record whose assembly
is empty is dropped: it leaves the reconstruction state unchanged,
producing no logical message. -/
theorem c8_assembly_join_and_drop (bs : List CBlock) (st : RState) (ts i : Str) :
    assembleBlocks bs = specAssembleBlocks bs
    ∧ (assembleBlocks bs = [] → stepEntry st (mkAsst ts bs i) = st) := by
  constructor
  · have hmem : ∀ p ∈ (bs.filter blockKeep).map blockText, p ≠ [] ∧ goodEnds p := by
      intro p hp
      rw [List.mem_map] at hp
      obtain ⟨b, hb, rfl⟩ := hp
      rw [List.mem_filter] at hb
      have hk := hb.2
      unfold blockKeep at hk
      rw [Bool.and_eq_true] at hk
      exact ⟨of_decide_eq_true hk.2, goodEnds_pyStrip _⟩
    exact (pyStrip_joinNL ((bs.filter blockKeep).map blockText) hmem).symm
  · intro he
    rw [stepEntry, userBranch_blocks]
    exact asstBranch_skip st ts bs i he

/-- Witness for C8: a record whose only block is pure whitespace
assembles to empty and is dropped; a two-block record assembles to the
join of its trimmed texts. -/
theorem c8_witness :
    stepEntry initState (mkAsst "t".data [CBlock.mk (some textS) (some "   ".data)] "i".data)
        = initState
    ∧ assembleBlocks [tb "  hi ".data, tb " there".data]
        = specAssembleBlocks [tb "  hi ".data, tb " there".data] :=
  ⟨(c8_assembly_join_and_drop [CBlock.mk (some textS) (some "   ".data)]
      initState "t".data "i".data).2 (by decide),
   (c8_assembly_join_and_drop [tb "  hi ".data, tb " there".data]
      initState "t".data "i".data).1⟩

/-! ### Tag-removal lemmas for C4 -/

theorem containsTok_length (tok s : Str) (h : containsTok tok s) :
    tok.length ≤ s.length := by
  obtain ⟨pre, suf, rfl⟩ := h
  simp [List.length_append]
  omega

theorem take_append_self (l₁ l₂ : Str) : (l₁ ++ l₂).take l₁.length = l₁ := by
  induction l₁ with
  | nil => rfl
  | cons a t ih => simp [List.take_succ_cons, ih]

theorem stripGo_length_le (fuel : Nat) (s : Str) :
    (stripGo fuel s).length ≤ s.length := by
  induction fuel generalizing s with
  | zero => cases s <;> simp [stripGo]
  | succ f ih =>
    cases s with
    | nil => simp [stripGo]
    | cons c rest =>
      simp only [stripGo]
      split
      · exact le_trans (ih _) (by simp only [List.length_drop]; omega)
      · split
        · exact le_trans (ih _) (by simp only [List.length_drop]; omega)
        · simpa using ih rest

theorem stripGo_removes (fuel : Nat) (s : Str) (hf : s.length ≤ fuel)
    (h : containsTok sumrOpen s ∨ containsTok sumrClose s) :
    (stripGo fuel s).length + 9 ≤ s.length := by
  have hlen9 : 9 ≤ s.length := by
    rcases h with h' | h'
    · simpa using containsTok_length _ _ h'
    · have := containsTok_length _ _ h'
      simp [sumrClose] at this
      omega
  induction fuel generalizing s with
  | zero => omega
  | succ f ih =>
    cases s with
    | nil => simp at hlen9
    | cons c rest =>
      simp only [stripGo]
      split
      · next h10 =>
        have hge : 10 ≤ (c :: rest).length := by
          have hl := congrArg List.length h10
          rw [List.length_take] at hl
          have hc : sumrClose.length = 10 := by decide
          omega
        have hle := stripGo_length_le f ((c :: rest).drop 10)
        simp only [List.length_drop] at hle
        omega
      · split
        · next h9 =>
          have hge : 9 ≤ (c :: rest).length := by
            have hl := congrArg List.length h9
            rw [List.length_take] at hl
            have hc : sumrOpen.length = 9 := by decide
            omega
          have hle := stripGo_length_le f ((c :: rest).drop 9)
          simp only [List.length_drop] at hle
          omega
        · next h10 h9 =>
          have h' : containsTok sumrOpen rest ∨ containsTok sumrClose rest := by
            rcases h with ⟨pre, suf, he⟩ | ⟨pre, suf, he⟩
            · cases pre with
              | nil =>
                exfalso
                apply h9
                rw [List.nil_append] at he
                rw [he, show (9 : Nat) = sumrOpen.length from rfl, take_append_self]
              | cons a pre' =>
                left
                injection he with _ h2
                exact ⟨pre', suf, h2⟩
            · cases pre with
              | nil =>
                exfalso
                apply h10
                rw [List.nil_append] at he
                rw [he, show (10 : Nat) = sumrClose.length from rfl, take_append_self]
              | cons a pre' =>
                right
                injection he with _ h2
                exact ⟨pre', suf, h2⟩
          have hr9 : 9 ≤ rest.length := by
            rcases h' with h'' | h''
            · simpa using containsTok_length _ _ h''
            · have := containsTok_length _ _ h''
              simp [sumrClose] at this
              omega
          have := ih rest (by simp at hf; omega) h' hr9
          simp only [List.length_cons]
          omega

theorem stripGo_id_of_free (fuel : Nat) (s : Str)
    (h1 : ¬ containsTok sumrOpen s) (h2 : ¬ containsTok sumrClose s) :
    stripGo fuel s = s := by
  induction fuel generalizing s with
  | zero => cases s <;> rfl
  | succ f ih =>
    cases s with
    | nil => rfl
    | cons c rest =>
      have hno10 : ¬ (c :: rest).take 10 = sumrClose := by
        intro h10
        apply h2
        refine ⟨[], (c :: rest).drop 10, ?_⟩
        rw [List.nil_append, ← h10, List.take_append_drop]
      have hno9 : ¬ (c :: rest).take 9 = sumrOpen := by
        intro h9
        apply h1
        refine ⟨[], (c :: rest).drop 9, ?_⟩
        rw [List.nil_append, ← h9, List.take_append_drop]
      simp only [stripGo]
      rw [if_neg hno10, if_neg hno9]
      congr 1
      apply ih
      · intro hx
        obtain ⟨pre, suf, he⟩ := hx
        exact h1 ⟨c :: pre, suf, by rw [List.cons_append, ← he]⟩
      · intro hx
        obtain ⟨pre, suf, he⟩ := hx
        exact h2 ⟨c :: pre, suf, by rw [List.cons_append, ← he]⟩

theorem stripSummary_removes (s : Str)
    (h : containsTok sumrOpen s ∨ containsTok sumrClose s) :
    (stripSummary s).length + 9 ≤ s.length :=
  stripGo_removes s.length s le_rfl h

theorem stripSummary_id_of_free (s : Str)
    (h1 : ¬ containsTok sumrOpen s) (h2 : ¬ containsTok sumrClose s) :
    stripSummary s = s :=
  stripGo_id_of_free s.length s h1 h2

/-- C4 counterexample: the regex of line 306 is case-sensitive and
admits no inner spacing, so a block whose text is `<SUMMARY>` — the
uppercasing of the opening summary tag — is emitted UNCHANGED (and not
dropped), contradicting removal "in any casing and any spacing". -/
theorem c4_counterexample :
    renderBlock? (Msg.mk asstS "<SUMMARY>".data "t".data 0)
        = some (asstS, "<SUMMARY>".data)
    ∧ "<SUMMARY>".data = "<summary>".data.map Char.toUpper := by decide

/-- C4 (amended): exactly the lowercase unspaced tokens `<summary>` and
`</summary>` are removed, in one left-to-right non-overlapping pass:
any block text containing one of these exact tokens loses at least the
token length; a text containing neither token is left unchanged; and a
block whose text sanitizes (tag removal plus trim) to empty is skipped
entirely — nothing is emitted for it. -/
theorem c4_exact_summary_tags_removed (m : Msg)
    (h : containsTok sumrOpen m.text ∨ containsTok sumrClose m.text) :
    (stripSummary m.text).length + 9 ≤ m.text.length
    ∧ (sanitizeText m.text = [] → renderBlock? m = none)
    ∧ (∀ t : Str, ¬ containsTok sumrOpen t → ¬ containsTok sumrClose t →
        stripSummary t = t) := by
  refine ⟨stripSummary_removes _ h, ?_, ?_⟩
  · intro he
    simp [renderBlock?, he]
  · intro t h1 h2
    exact stripSummary_id_of_free t h1 h2

/-- Witness for C4 (amended): a block that is exactly the opening tag
loses its 9 characters and is dropped. -/
theorem c4_witness :
    (stripSummary "<summary>".data).length + 9 ≤ "<summary>".data.length
    ∧ renderBlock? (Msg.mk asstS "<summary>".data "t".data 0) = none := by
  have h := c4_exact_summary_tags_removed (Msg.mk asstS "<summary>".data "t".data 0)
    (Or.inl ⟨[], [], by decide⟩)
  exact ⟨h.1, h.2.1 (by decide)⟩

/-! ### Adjacency-merge lemmas for C3 -/

theorem mergeGo_head_role (fuel : Nat) :
    ∀ (m : Msg) (l : List Msg), (m :: l).length ≤ fuel →
      ∃ m' l', mergeGo fuel (m :: l) = m' :: l' ∧ m'.role = m.role := by
  induction fuel with
  | zero => intro m l h; simp at h
  | succ f ih =>
    intro m l hf
    cases l with
    | nil => exact ⟨m, [], rfl, rfl⟩
    | cons m₂ rest =>
      simp only [mergeGo]
      split
      · next hr =>
        obtain ⟨m', l', hm, hrole⟩ :=
          ih (Msg.mk m.role (m.text ++ '\n' :: '\n' :: m₂.text) m.timestamp m.order) rest
            (by simp at hf ⊢; omega)
        exact ⟨m', l', hm, by rw [hrole]⟩
      · next hr =>
        exact ⟨m, mergeGo f (m₂ :: rest), rfl, rfl⟩

theorem mergeGo_chain (fuel : Nat) :
    ∀ l : List Msg, l.length ≤ fuel →
      List.Chain' (fun a b => a.role ≠ b.role) (mergeGo fuel l) := by
  induction fuel with
  | zero =>
    intro l h
    have hl : l = [] := List.length_eq_zero.mp (Nat.le_zero.mp h)
    subst hl
    simp [mergeGo]
  | succ f ih =>
    intro l hf
    cases l with
    | nil => simp [mergeGo]
    | cons m₁ l2 =>
      cases l2 with
      | nil => simp [mergeGo]
      | cons m₂ rest =>
        simp only [mergeGo]
        split
        · next hr => exact ih _ (by simp at hf ⊢; omega)
        · next hr =>
          obtain ⟨m', l', hm, hrole⟩ := mergeGo_head_role f m₂ rest (by simp at hf ⊢; omega)
          rw [hm, List.chain'_cons]
          constructor
          · rw [hrole]; exact hr
          · rw [← hm]; exact ih _ (by simp at hf ⊢; omega)

/-- C3 counterexample: for the input user "a", assistant "<summary>",
user "b", the middle block sanitizes to empty and is skipped, so the
emitted role-tagged sections are two consecutive `user` sections —
adjacency of emitted blocks is NOT total once sanitization drops a
block. -/
theorem c3_counterexample :
    ((mergeAdjacent (reconstructMsgs
        [some (mkUser "t1".data "a".data),
         some (mkAsst "t2".data [tb "<summary>".data] "x".data),
         some (mkUser "t3".data "b".data)])).filterMap renderBlock?).map Prod.fst
      = [userS, userS]
    ∧ ¬ List.Chain' (fun a b : Str => a ≠ b)
        (((mergeAdjacent (reconstructMsgs
            [some (mkUser "t1".data "a".data),
             some (mkAsst "t2".data [tb "<summary>".data] "x".data),
             some (mkUser "t3".data "b".data)])).filterMap renderBlock?).map Prod.fst) := by
  have h : ((mergeAdjacent (reconstructMsgs
      [some (mkUser "t1".data "a".data),
       some (mkAsst "t2".data [tb "<summary>".data] "x".data),
       some (mkUser "t3".data "b".data)])).filterMap renderBlock?).map Prod.fst
      = [userS, userS] := by decide
  refine ⟨h, ?_⟩
  rw [h]
  simp [List.chain'_cons]

/-- C3 (amended): the merged block sequence produced by the
adjacency-merge pass itself never has two neighbouring blocks of the
same role, for every input record sequence; but sections emitted after
sanitization may repeat a role when a block between them is dropped
(see the counterexample). -/
theorem c3_merged_blocks_alternate (ls : List (Option Entry)) :
    List.Chain' (fun a b => a.role ≠ b.role) (mergeAdjacent (reconstructMsgs ls)) :=
  mergeGo_chain _ _ le_rfl

theorem runFrom_cons (st : RState) (l : Option Entry) (ls : List (Option Entry)) :
    runFrom st (l :: ls) = runFrom (stepLine st l) ls := rfl

theorem runRaw_append (pre post : List RawLine) :
    ∀ st : RState, runRaw st (pre ++ post)
      = (runRaw st pre).bind (fun st' => runRaw st' post) := by
  induction pre with
  | nil => intro st; rfl
  | cons l pre' ih =>
    intro st
    show runRaw st (l :: (pre' ++ post)) = _
    cases h : stepRaw st l with
    | none => simp [runRaw, h]
    | some st' => simp [runRaw, h, ih st']

/-- On a stream with no crashing line, the raw loop agrees with the
crash-free loop on the per-line readings. -/
theorem runRaw_crash_free (ls : List RawLine) :
    ∀ st : RState, RawLine.nonRecord ∉ ls
    → runRaw st ls = some (runFrom st (ls.map rawToLine)) := by
  induction ls with
  | nil => intro st _; rfl
  | cons l rest ih =>
    intro st h
    have hl : l ≠ RawLine.nonRecord := fun hx => h (hx ▸ List.mem_cons_self _ _)
    have hrest : RawLine.nonRecord ∉ rest := fun hx => h (List.mem_cons_of_mem _ hx)
    cases l with
    | blank => simpa [runRaw, stepRaw, rawToLine, runFrom_cons, stepLine] using ih st hrest
    | badJson => simpa [runRaw, stepRaw, rawToLine, runFrom_cons, stepLine] using ih st hrest
    | nonRecord => exact absurd rfl hl
    | record e =>
      simpa [runRaw, stepRaw, rawToLine, runFrom_cons, stepLine]
        using ih (stepEntry st e) hrest

/-- C5 counterexample: a line that parses as JSON but is not a record
(such as `[]` or `{"message": null}`) is NOT skipped: the `except` of
line 226 catches only `JSONDecodeError`, the attribute accesses of
lines 229-231 raise an uncaught `AttributeError`, and the run aborts —
the remaining line contributes nothing, no output is produced, and the
result differs from the same stream without that line (which converts
successfully). -/
theorem c5_counterexample :
    runRaw initState
      [RawLine.record (mkUser "t1".data "hi".data), RawLine.nonRecord,
       RawLine.record (mkUser "t2".data "bye".data)] = none
    ∧ jsonl_to_markdown_raw (fun _ => none) []
        (some [RawLine.record (mkUser "t1".data "hi".data), RawLine.nonRecord,
               RawLine.record (mkUser "t2".data "bye".data)]) = ConvResult.crashed
    ∧ jsonl_to_markdown_raw (fun _ => none) []
        (some [RawLine.record (mkUser "t1".data "hi".data),
               RawLine.record (mkUser "t2".data "bye".data)]) ≠ ConvResult.crashed := by
  decide

/-- C5 (amended): only the lines the `except` clause covers are skipped
silently — a blank line or a line on which JSON decoding itself fails
contributes no message, raises no error, and leaves the whole run and
its output unchanged; but a line that parses as JSON without being a
record raises an uncaught error that aborts the run (no output,
remaining lines unprocessed), wherever it occurs. -/
theorem c5_blank_and_undecodable_skipped (pre post : List RawLine) (l : RawLine)
    (fmtDate : Str → Option Str) (sid : Str)
    (h : l = RawLine.blank ∨ l = RawLine.badJson) :
    runRaw initState (pre ++ l :: post) = runRaw initState (pre ++ post)
    ∧ jsonl_to_markdown_raw fmtDate sid (some (pre ++ l :: post))
        = jsonl_to_markdown_raw fmtDate sid (some (pre ++ post))
    ∧ runRaw initState (pre ++ RawLine.nonRecord :: post) = none
    ∧ jsonl_to_markdown_raw fmtDate sid (some (pre ++ RawLine.nonRecord :: post))
        = ConvResult.crashed := by
  have hskip : ∀ st : RState, stepRaw st l = some st := by
    rcases h with rfl | rfl <;> intro st <;> rfl
  have h1 : runRaw initState (pre ++ l :: post) = runRaw initState (pre ++ post) := by
    rw [runRaw_append, runRaw_append]
    cases hr : runRaw initState pre with
    | none => rfl
    | some st' => simp [runRaw, hskip st']
  have hcrash : runRaw initState (pre ++ RawLine.nonRecord :: post) = none := by
    rw [runRaw_append]
    cases hr : runRaw initState pre with
    | none => rfl
    | some st' => simp [runRaw, stepRaw]
  refine ⟨h1, ?_, hcrash, ?_⟩
  · simp only [jsonl_to_markdown_raw, h1]
  · simp only [jsonl_to_markdown_raw, hcrash]

/-- Witness for C5 (amended): a blank line after a user record changes
nothing; a non-record line after it aborts the run. -/
theorem c5_witness :
    runRaw initState [RawLine.record (mkUser "t".data "hi".data), RawLine.blank]
        = runRaw initState [RawLine.record (mkUser "t".data "hi".data)]
    ∧ runRaw initState
        [RawLine.record (mkUser "t".data "hi".data), RawLine.nonRecord] = none := by
  have h := c5_blank_and_undecodable_skipped
    [RawLine.record (mkUser "t".data "hi".data)] [] RawLine.blank
    (fun _ => none) [] (Or.inl rfl)
  exact ⟨h.1, h.2.2.1⟩

/-- C6: a missing input file yields the failure result and no document;
an input reconstructing to zero messages yields the failure result and
no document; a document is produced exactly when at least one message
was reconstructed. -/
theorem c6_notfound_and_empty_fail (fmtDate : Str → Option Str) (sid : Str)
    (ls : List (Option Entry)) :
    jsonl_to_markdown fmtDate sid none = none
    ∧ (reconstructMsgs ls = [] → jsonl_to_markdown fmtDate sid (some ls) = none)
    ∧ (reconstructMsgs ls ≠ [] →
        ∃ doc, jsonl_to_markdown fmtDate sid (some ls) = some doc) := by
  refine ⟨rfl, ?_, ?_⟩
  · intro h
    simp [jsonl_to_markdown, h]
  · intro h
    simp [jsonl_to_markdown, h]

/-- Witness for C6: the empty file fails; a one-user-record file
produces a document. -/
theorem c6_witness :
    jsonl_to_markdown (fun _ => none) [] (some []) = none
    ∧ ∃ doc, jsonl_to_markdown (fun _ => none) []
        (some [some (mkUser "t".data "hi".data)]) = some doc :=
  ⟨(c6_notfound_and_empty_fail (fun _ => none) [] []).2.1 (by decide),
   (c6_notfound_and_empty_fail (fun _ => none) [] [some (mkUser "t".data "hi".data)]).2.2
     (by decide)⟩

/-- C9: reconstruction and rendering are deterministic — they are pure
functions of the record sequence, so equal inputs give identical
message sequences and identical rendered text. -/
theorem c9_deterministic (ls₁ ls₂ : List (Option Entry))
    (fmtDate : Str → Option Str) (sid : Str) (h : ls₁ = ls₂) :
    reconstructMsgs ls₁ = reconstructMsgs ls₂
    ∧ jsonl_to_markdown fmtDate sid (some ls₁) = jsonl_to_markdown fmtDate sid (some ls₂) := by
  subst h
  exact ⟨rfl, rfl⟩

/-- Witness for C9 at a concrete record sequence. -/
theorem c9_witness :
    reconstructMsgs [some (mkUser "t".data "hi".data)]
        = reconstructMsgs [some (mkUser "t".data "hi".data)]
    ∧ jsonl_to_markdown (fun _ => none) [] (some [some (mkUser "t".data "hi".data)])
        = jsonl_to_markdown (fun _ => none) [] (some [some (mkUser "t".data "hi".data)]) :=
  c9_deterministic [some (mkUser "t".data "hi".data)] [some (mkUser "t".data "hi".data)]
    (fun _ => none) [] rfl

/-! ### User-deduplication lemmas for C2 -/

theorem mem_dictSet (k : Str) (v : Msg) (d : List (Str × Msg)) (p : Str × Msg)
    (hp : p ∈ dictSet k v d) : p = (k, v) ∨ p ∈ d := by
  induction d with
  | nil => simpa [dictSet] using hp
  | cons q rest ih =>
    obtain ⟨k', v'⟩ := q
    by_cases h : k' = k
    · rw [dictSet, if_pos h] at hp
      rcases List.mem_cons.mp hp with h1 | h1
      · exact Or.inl h1
      · exact Or.inr (List.mem_cons_of_mem _ h1)
    · rw [dictSet, if_neg h] at hp
      rcases List.mem_cons.mp hp with h1 | h1
      · exact Or.inr (h1 ▸ List.mem_cons_self _ _)
      · rcases ih h1 with h2 | h2
        · exact Or.inl h2
        · exact Or.inr (List.mem_cons_of_mem _ h2)

theorem dictFind_mem (k : Str) (d : List (Str × Msg)) (m : Msg)
    (h : dictFind k d = some m) : (k, m) ∈ d := by
  induction d with
  | nil => simp [dictFind] at h
  | cons q rest ih =>
    obtain ⟨k', v'⟩ := q
    by_cases hk : k' = k
    · rw [dictFind, if_pos hk] at h
      injection h with h
      subst hk
      subst h
      exact List.mem_cons_self _ _
    · rw [dictFind, if_neg hk] at h
      exact List.mem_cons_of_mem _ (ih h)

/-- The assistant branch never touches `messages` or `seen_user_texts`. -/
theorem asstBranch_keep (st : RState) (e : Entry) :
    (asstBranch st e).messages = st.messages
    ∧ (asstBranch st e).seenUserTexts = st.seenUserTexts := by
  rcases e with ⟨et, ts, r, cnt, mid⟩
  cases cnt with
  | str s => exact ⟨rfl, rfl⟩
  | other => exact ⟨rfl, rfl⟩
  | blocks bs =>
    simp only [asstBranch]
    repeat' first
    | exact ⟨rfl, rfl⟩
    | split

/-- The assistant branch only ever stores messages whose role is
`assistant`. -/
theorem asstBranch_roles (st : RState) (e : Entry)
    (h : ∀ p ∈ st.assistantMsgs, p.2.role = asstS) :
    ∀ p ∈ (asstBranch st e).assistantMsgs, p.2.role = asstS := by
  rcases e with ⟨et, ts, r, cnt, mid⟩
  cases cnt with
  | str s => exact h
  | other => exact h
  | blocks bs =>
    simp only [asstBranch]
    split
    · split
      · exact h
      · split
        · split
          · rename_i m heq
            split
            · intro p hp
              rcases mem_dictSet _ _ _ p hp with rfl | hmem
              · exact h (_, m) (dictFind_mem _ _ _ heq)
              · exact h p hmem
            · exact h
          · intro p hp
            rcases mem_dictSet _ _ _ p hp with rfl | hmem
            · rfl
            · exact h p hmem
        · intro p hp
          rcases mem_dictSet _ _ _ p hp with rfl | hmem
          · rfl
          · exact h p hmem
    · exact h

/-- The user branch either does nothing, or (for an unseen user text)
appends one user message and records the text as seen. -/
theorem userBranch_spec (st : RState) (e : Entry) :
    userBranch st e = st
    ∨ ∃ c, e.etype = some userS ∧ e.role = some userS ∧ e.content = Content.str c
        ∧ c ∉ st.seenUserTexts
        ∧ userBranch st e = RState.mk
            (st.messages ++ [Msg.mk userS c e.timestamp st.orderCounter])
            (c :: st.seenUserTexts) st.assistantMsgs (st.orderCounter + 1) := by
  rcases e with ⟨et, ts, r, cnt, mid⟩
  cases cnt with
  | str c =>
    simp only [userBranch]
    by_cases h1 : et = some userS ∧ r = some userS
    · rw [if_pos h1]
      by_cases h2 : c ∈ st.seenUserTexts
      · rw [if_pos h2]; exact Or.inl rfl
      · rw [if_neg h2]; exact Or.inr ⟨c, h1.1, h1.2, rfl, h2, rfl⟩
    · rw [if_neg h1]; exact Or.inl rfl
  | blocks bs => exact Or.inl rfl
  | other => exact Or.inl rfl

/-- The user branch fires on a user-typed record with an unseen text. -/
theorem userBranch_fire (st : RState) (e : Entry) (c : Str)
    (he : e.etype = some userS) (hr : e.role = some userS)
    (hc : e.content = Content.str c) (h : c ∉ st.seenUserTexts) :
    userBranch st e = RState.mk
      (st.messages ++ [Msg.mk userS c e.timestamp st.orderCounter])
      (c :: st.seenUserTexts) st.assistantMsgs (st.orderCounter + 1) := by
  rcases e with ⟨et, ts, r, cnt, mid⟩
  simp only at he hr hc
  subst he; subst hr; subst hc
  simp [userBranch, h]

/-- The assistant branch ignores records whose content is a plain
string. -/
theorem asstBranch_str (st : RState) (e : Entry) (c : Str)
    (hc : e.content = Content.str c) : asstBranch st e = st := by
  rcases e with ⟨et, ts, r, cnt, mid⟩
  simp only at hc
  subst hc
  rfl

theorem asstS_ne_userS : asstS ≠ userS := by decide

/-- While no user record with text `c` has been processed, `c` stays
unseen and no user message with text `c` is appended. -/
theorem runFrom_no_user_c (c : Str) (ls : List (Option Entry)) :
    ∀ st : RState, c ∉ st.seenUserTexts
    → (∀ l ∈ ls, isUserRecWith c l = false)
    → c ∉ (runFrom st ls).seenUserTexts
      ∧ (runFrom st ls).messages.filter (isUserMsgWith c)
          = st.messages.filter (isUserMsgWith c) := by
  induction ls with
  | nil => intro st h1 _; exact ⟨h1, rfl⟩
  | cons l rest ih =>
    intro st h1 h2
    have hl : isUserRecWith c l = false := h2 l (List.mem_cons_self _ _)
    have hrest : ∀ l' ∈ rest, isUserRecWith c l' = false :=
      fun l' h' => h2 l' (List.mem_cons_of_mem _ h')
    rw [runFrom_cons]
    cases l with
    | none => exact ih st h1 hrest
    | some e =>
      rcases userBranch_spec st e with hu | ⟨c', he, hr, hc, hcnot, hu⟩
      · have h1' : c ∉ (stepEntry st e).seenUserTexts := by
          rw [stepEntry, (asstBranch_keep _ e).2, hu]; exact h1
        have h2' : (stepEntry st e).messages.filter (isUserMsgWith c)
            = st.messages.filter (isUserMsgWith c) := by
          rw [stepEntry, (asstBranch_keep _ e).1, hu]
        obtain ⟨ha, hb⟩ := ih (stepEntry st e) h1' hrest
        exact ⟨ha, hb.trans h2'⟩
      · have hcc : c' ≠ c := by
          intro hx
          subst hx
          rw [isUserRecWith] at hl
          simp [he, hr, hc] at hl
        have h1' : c ∉ (stepEntry st e).seenUserTexts := by
          rw [stepEntry, (asstBranch_keep _ e).2, hu]
          intro hx
          rcases List.mem_cons.mp hx with hx | hx
          · exact hcc hx.symm
          · exact h1 hx
        have h2' : (stepEntry st e).messages.filter (isUserMsgWith c)
            = st.messages.filter (isUserMsgWith c) := by
          rw [stepEntry, (asstBranch_keep _ e).1, hu]
          show (st.messages ++ [Msg.mk userS c' e.timestamp st.orderCounter]).filter _ = _
          rw [List.filter_append]
          have hfalse : isUserMsgWith c (Msg.mk userS c' e.timestamp st.orderCounter)
              = false := by
            simp [isUserMsgWith, hcc]
          simp [List.filter, hfalse]
        obtain ⟨ha, hb⟩ := ih (stepEntry st e) h1' hrest
        exact ⟨ha, hb.trans h2'⟩

/-- Once `c` is in the seen set, later records never append another
user message with text `c` (and `c` stays seen). -/
theorem runFrom_after_seen (c : Str) (ls : List (Option Entry)) :
    ∀ st : RState, c ∈ st.seenUserTexts
    → c ∈ (runFrom st ls).seenUserTexts
      ∧ (runFrom st ls).messages.filter (isUserMsgWith c)
          = st.messages.filter (isUserMsgWith c) := by
  induction ls with
  | nil => intro st h1; exact ⟨h1, rfl⟩
  | cons l rest ih =>
    intro st h1
    rw [runFrom_cons]
    cases l with
    | none => exact ih st h1
    | some e =>
      rcases userBranch_spec st e with hu | ⟨c', he, hr, hc, hcnot, hu⟩
      · have h1' : c ∈ (stepEntry st e).seenUserTexts := by
          rw [stepEntry, (asstBranch_keep _ e).2, hu]; exact h1
        have h2' : (stepEntry st e).messages.filter (isUserMsgWith c)
            = st.messages.filter (isUserMsgWith c) := by
          rw [stepEntry, (asstBranch_keep _ e).1, hu]
        obtain ⟨ha, hb⟩ := ih (stepEntry st e) h1'
        exact ⟨ha, hb.trans h2'⟩
      · have hcc : c' ≠ c := fun hx => hcnot (hx ▸ h1)
        have h1' : c ∈ (stepEntry st e).seenUserTexts := by
          rw [stepEntry, (asstBranch_keep _ e).2, hu]
          exact List.mem_cons_of_mem _ h1
        have h2' : (stepEntry st e).messages.filter (isUserMsgWith c)
            = st.messages.filter (isUserMsgWith c) := by
          rw [stepEntry, (asstBranch_keep _ e).1, hu]
          show (st.messages ++ [Msg.mk userS c' e.timestamp st.orderCounter]).filter _ = _
          rw [List.filter_append]
          have hfalse : isUserMsgWith c (Msg.mk userS c' e.timestamp st.orderCounter)
              = false := by
            simp [isUserMsgWith, hcc]
          simp [List.filter, hfalse]
        obtain ⟨ha, hb⟩ := ih (stepEntry st e) h1'
        exact ⟨ha, hb.trans h2'⟩

/-- Every message in the assistant dict has role `assistant`. -/
theorem runFrom_roles (ls : List (Option Entry)) :
    ∀ st : RState, (∀ p ∈ st.assistantMsgs, p.2.role = asstS)
    → ∀ p ∈ (runFrom st ls).assistantMsgs, p.2.role = asstS := by
  induction ls with
  | nil => intro st h; exact h
  | cons l rest ih =>
    intro st h
    rw [runFrom_cons]
    cases l with
    | none => exact ih st h
    | some e =>
      apply ih
      apply asstBranch_roles
      rcases userBranch_spec st e with hu | ⟨c', _, _, _, _, hu⟩
      · rw [hu]; exact h
      · rw [hu]; exact h

/-- C2: in a stream whose first user-typed record with string content
`c` is `e` (no earlier record carries that text) and which contains a
later duplicate, the reconstructed output contains exactly one user
message with text `c`; that message carries the order assigned at the
first occurrence (the counter value reached after the prefix), and the
output is ordered by ascending sequence index, so later duplicates
cause no new message and no reordering. -/
theorem c2_user_duplicate_suppression (es1 es2 : List (Option Entry)) (e : Entry) (c : Str)
    (he : e.etype = some userS) (hr : e.role = some userS)
    (hc : e.content = Content.str c)
    (hfirst : ∀ l ∈ es1, isUserRecWith c l = false)
    (_hdup : ∃ l ∈ es2, isUserRecWith c l = true) :
    (reconstructMsgs (es1 ++ some e :: es2)).countP (isUserMsgWith c) = 1
    ∧ (∀ m ∈ reconstructMsgs (es1 ++ some e :: es2), isUserMsgWith c m = true
        → m.order = (runFrom initState es1).orderCounter)
    ∧ List.Pairwise msgLE (reconstructMsgs (es1 ++ some e :: es2)) := by
  obtain ⟨hA1, hA2⟩ :=
    runFrom_no_user_c c es1 initState (by simp [initState]) hfirst
  have hA2' : (runFrom initState es1).messages.filter (isUserMsgWith c) = [] := by
    simpa [initState] using hA2
  have hsplit : runState (es1 ++ some e :: es2)
      = runFrom (stepEntry (runFrom initState es1) e) es2 := by
    unfold runState runFrom
    rw [List.foldl_append]
    rfl
  have hu := userBranch_fire (runFrom initState es1) e c he hr hc hA1
  have hst2 : stepEntry (runFrom initState es1) e = RState.mk
      ((runFrom initState es1).messages
        ++ [Msg.mk userS c e.timestamp (runFrom initState es1).orderCounter])
      (c :: (runFrom initState es1).seenUserTexts)
      (runFrom initState es1).assistantMsgs
      ((runFrom initState es1).orderCounter + 1) := by
    rw [stepEntry, asstBranch_str _ e c hc, hu]
  have hseen2 : c ∈ (stepEntry (runFrom initState es1) e).seenUserTexts := by
    rw [hst2]
    exact List.mem_cons_self _ _
  obtain ⟨hB1, hB2⟩ :=
    runFrom_after_seen c es2 (stepEntry (runFrom initState es1) e) hseen2
  have hmsgs : (runFrom (stepEntry (runFrom initState es1) e) es2).messages.filter
        (isUserMsgWith c)
      = [Msg.mk userS c e.timestamp (runFrom initState es1).orderCounter] := by
    rw [hB2, hst2]
    show ((runFrom initState es1).messages ++ [_]).filter _ = _
    rw [List.filter_append, hA2']
    have htrue : isUserMsgWith c
        (Msg.mk userS c e.timestamp (runFrom initState es1).orderCounter) = true := by
      simp [isUserMsgWith]
    simp [List.filter, htrue]
  have hroles1 : ∀ p ∈ (runFrom initState es1).assistantMsgs, p.2.role = asstS :=
    runFrom_roles es1 initState (by simp [initState])
  have hroles2 : ∀ p ∈ (stepEntry (runFrom initState es1) e).assistantMsgs,
      p.2.role = asstS := by
    rw [hst2]
    exact hroles1
  have hroles : ∀ p ∈ (runFrom (stepEntry (runFrom initState es1) e) es2).assistantMsgs,
      p.2.role = asstS :=
    runFrom_roles es2 _ hroles2
  have hperm : List.Perm (reconstructMsgs (es1 ++ some e :: es2))
      ((runFrom (stepEntry (runFrom initState es1) e) es2).messages
          ++ (runFrom (stepEntry (runFrom initState es1) e) es2).assistantMsgs.map
            Prod.snd) := by
    unfold reconstructMsgs
    rw [hsplit]
    exact List.perm_insertionSort msgLE _
  refine ⟨?_, ?_, ?_⟩
  · rw [hperm.countP_eq, List.countP_append]
    have h1 : (runFrom (stepEntry (runFrom initState es1) e) es2).messages.countP
        (isUserMsgWith c) = 1 := by
      rw [List.countP_eq_length_filter, hmsgs]
      rfl
    have h2 : ((runFrom (stepEntry (runFrom initState es1) e) es2).assistantMsgs.map
        Prod.snd).countP (isUserMsgWith c) = 0 := by
      rw [List.countP_eq_zero]
      intro a ha
      rw [List.mem_map] at ha
      obtain ⟨q, hq, rfl⟩ := ha
      have hq2 := hroles q hq
      simp only [isUserMsgWith, decide_eq_true_eq]
      intro hx
      exact asstS_ne_userS (hq2 ▸ hx.1)
    omega
  · intro m hm hm2
    have hmem := hperm.mem_iff.mp hm
    rcases List.mem_append.mp hmem with h | h
    · have hf : m ∈ (runFrom (stepEntry (runFrom initState es1) e) es2).messages.filter
          (isUserMsgWith c) := List.mem_filter.mpr ⟨h, hm2⟩
      rw [hmsgs] at hf
      have := List.mem_singleton.mp hf
      rw [this]
    · exfalso
      rw [List.mem_map] at h
      obtain ⟨q, hq, rfl⟩ := h
      have hq2 := hroles q hq
      rw [isUserMsgWith, decide_eq_true_eq] at hm2
      exact asstS_ne_userS (hq2 ▸ hm2.1)
  · exact List.sorted_insertionSort msgLE _

/-- Witness for C2: two byte-identical user records "hello" yield one
user message. -/
theorem c2_witness :
    (reconstructMsgs ([] ++ some (mkUser "t0".data "hello".data)
        :: [some (mkUser "t1".data "hello".data)])).countP
      (isUserMsgWith "hello".data) = 1 :=
  (c2_user_duplicate_suppression [] [some (mkUser "t1".data "hello".data)]
    (mkUser "t0".data "hello".data) "hello".data rfl rfl rfl
    (by simp)
    ⟨some (mkUser "t1".data "hello".data), by simp, by decide⟩).1

end SessionToMd
